import Mathlib

/-!
Verification development for the mutual-fund advisor repository.

The definitions below are shallow embeddings of the Python functions in
`app/masterlist.py` and `app/metrics.py`.  Strings are modelled as Lean
`String`/`List Char` (the repository only processes ASCII scheme names),
Python floats are modelled as `ℚ` where the code only compares / adds /
divides, and as `ℝ` where it takes real powers or square roots.
Provider I/O (the `mftool` client) is modelled as explicit function
parameters.
-/

namespace MFAdvisor

/-! ## Python string primitives

`pyIsSpace` models Python's `\s` / `str.split()` / `str.strip()` whitespace
on the ASCII range; `isWordChar` models the regex `\w` class `[a-zA-Z0-9_]`
(the scheme names handled by the repository are ASCII). -/

def pyIsSpace (c : Char) : Bool :=
  c = ' ' || c = '\t' || c = '\n' || c = '\r' || c = '\x0b' || c = '\x0c'

def isWordChar (c : Char) : Bool :=
  c.isAlpha || c.isDigit || c = '_'

/-- Python `str.lower()` (ASCII range). -/
def pyLower (l : List Char) : List Char := l.map Char.toLower

/-- Python `str.strip()`. -/
def pyStrip (l : List Char) : List Char :=
  ((l.dropWhile pyIsSpace).reverse.dropWhile pyIsSpace).reverse

/-- Python `str.split()` (split on whitespace runs, dropping empty parts). -/
def splitWordsAux : List Char → List Char → List (List Char)
  | [], acc => if acc.isEmpty then [] else [acc.reverse]
  | c :: cs, acc =>
    if pyIsSpace c then
      if acc.isEmpty then splitWordsAux cs [] else acc.reverse :: splitWordsAux cs []
    else splitWordsAux cs (c :: acc)

def splitWords (l : List Char) : List (List Char) := splitWordsAux l []

/-- Python `" ".join(s.split())`. -/
def pySplitJoin (l : List Char) : List Char :=
  List.intercalate [' '] (splitWords l)

/-! ## A small substitution engine for the fixed regexes of `masterlist.py`

`re.sub` scans left to right; at each position it tries the pattern, and on
a match emits the replacement and resumes after the matched text.  Word
boundaries (`\b`) are computed on the original text, so the scanner
threads the previously consumed character.  Each step of `subScan`
consumes at least one character, so fuel equal to the input length is
always sufficient. -/

/-- One scanning step: given the previous original character and the rest of
the input, an attempted match returns (replacement, last matched char, rest
after the match). -/
def SubStep : Type :=
  Option Char → List Char → Option (List Char × Option Char × List Char)

def subScan (step : SubStep) : Nat → Option Char → List Char → List Char
  | 0, _, l => l
  | _ + 1, _, [] => []
  | fuel + 1, prev, c :: cs =>
    match step prev (c :: cs) with
    | some (repl, lastC, rest) => repl ++ subScan step fuel lastC rest
    | none => c :: subScan step fuel (some c) cs

def runSub (step : SubStep) (l : List Char) : List Char :=
  subScan step l.length none l

/-- Step for a character-class-run pattern `[cls]+ -> repl`
(also used with a minimum run length, e.g. `[-]{2,}` and `\s{2,}`). -/
def classRunStep (cls : Char → Bool) (minLen : Nat) (repl : List Char) : SubStep :=
  fun _ l =>
    let run := l.takeWhile cls
    if minLen ≤ run.length ∧ 1 ≤ run.length then
      some (repl, run.getLast?, l.dropWhile cls)
    else none

/-- Case-insensitive literal match of a (lowercase) pattern against the head
of the text; returns the last matched original character and the rest. -/
def matchCI : List Char → List Char → Option Char → Option (Option Char × List Char)
  | [], rest, lastC => some (lastC, rest)
  | p :: ps, c :: cs, _ => if c.toLower = p then matchCI ps cs (some c) else none
  | _ :: _, [], _ => none

def isWordOpt : Option Char → Bool
  | none => false
  | some c => isWordChar c

/-- A regex `\b` holds between two (optional) characters iff exactly one of
them is a word character. -/
def wordBoundary (a b : Option Char) : Bool := isWordOpt a != isWordOpt b

/-- Step for a word-bounded, case-insensitive alternation
`\b(?:pat1|pat2|...)\b -> repl`; alternatives are tried in order (Python
`re` first-alternative-wins semantics).  Patterns are given lowercase. -/
def altStep (pats : List (List Char)) (repl : List Char) : SubStep :=
  fun prev l =>
    let rec tryPats : List (List Char) → Option (List Char × Option Char × List Char)
      | [] => none
      | pat :: rest =>
        match pat with
        | [] => tryPats rest
        | p0 :: ptail =>
          if wordBoundary prev (some p0) then
            match matchCI (p0 :: ptail) l none with
            | some (lastC, after) =>
              if wordBoundary (some ((p0 :: ptail).getLast (by simp))) after.head? then
                some (repl, lastC, after)
              else tryPats rest
            | none => tryPats rest
          else tryPats rest
    tryPats pats

/-- Step for the bracket pattern `[\(\[\{][^\)\]\}]*[\)\]\}] -> " "`:
an opening bracket, everything up to the first closing bracket, and that
closing bracket. -/
def isOpenBracket (c : Char) : Bool := c = '(' || c = '[' || c = '{'
def isCloseBracket (c : Char) : Bool := c = ')' || c = ']' || c = '}'

def bracketStep : SubStep :=
  fun _ l =>
    match l with
    | [] => none
    | c :: cs =>
      if isOpenBracket c then
        let inner := cs.takeWhile (fun d => !isCloseBracket d)
        match cs.dropWhile (fun d => !isCloseBracket d) with
        | close :: rest => some ([' '], some close, rest)
        | [] => (if inner.isEmpty then none else none)
      else none

/-- Step for `\s*-\s* -> " - "`. -/
def hyphenSpaceStep : SubStep :=
  fun _ l =>
    let ws1 := l.takeWhile pyIsSpace
    match l.dropWhile pyIsSpace with
    | '-' :: r2 =>
      let ws2 := r2.takeWhile pyIsSpace
      let rest := r2.dropWhile pyIsSpace
      some ([' ', '-', ' '], (if ws2.isEmpty then some '-' else ws2.getLast?), rest)
    | _ => (if ws1.isEmpty then none else none)

/-! ## `masterlist.py`: name normalization -/

/-- The separator character class of
`re.sub(r"[\/|••]+", "-", s)` (`•` is U+2022). -/
def sepClass (c : Char) : Bool := c = '/' || c = '|' || c = '•'

/-- The four long-form IDCW/payout phrase alternatives of the second
substitution in `_strip_plan_option_tokens`, in source order. -/
def idcwPhrases : List (List Char) :=
  [ "payout of income distribution cum capital withdrawal".data
  , "payout of income distribution".data
  , "income distribution cum capital withdrawal".data
  , "payout of income distribution cum capital withdrawal (idcw)".data ]

/-- The plan/option token vocabulary of `tokens_pattern` in
`_strip_plan_option_tokens`, in source order. -/
def planTokens : List (List Char) :=
  [ "direct plan".data, "regular plan".data, "direct".data, "regular".data
  , "plan".data, "option".data, "growth".data, "idcw".data, "dividend".data
  , "div".data, "dividend reinvestment".data, "reinvestment".data
  , "monthly".data, "quarterly".data, "annual".data, "institutional".data
  , "inst".data, "super institutional".data, "sub-plan".data, "sub plan".data
  , "retail".data, "monthly idcw".data, "fortnightly idcw".data
  , "weekly idcw".data, "payout".data, "bonus".data ]

def isHyphen (c : Char) : Bool := c = '-'
def edgeStripClass (c : Char) : Bool := pyIsSpace c || c = '-' || c = ':'
def commaSemiColonClass (c : Char) : Bool := c = ',' || c = ';' || c = ':'
def punctClass2 (c : Char) : Bool :=
  c = '.' || c = '\'' || c = '"' || c = '/' || c = '(' || c = ')' ||
  c = '[' || c = ']' || c = ':'

/-- Removal of a leading and a trailing `[\s\-\:]+` run
(`re.sub(r"(^[\s\-\:]+|[\s\-\:]+$)", "", s)`). -/
def stripEdgeClass (l : List Char) : List Char :=
  ((l.dropWhile edgeStripClass).reverse.dropWhile edgeStripClass).reverse

/-- Embedding of `_strip_plan_option_tokens` (`app/masterlist.py`):
the chain of `re.sub` calls, in source order. -/
def strip_plan_option_tokens (s : String) : String :=
  if s = "" then "" else
  let l0 := s.data
  let l1 := runSub (classRunStep sepClass 1 ['-']) l0
  let l2 := runSub (altStep idcwPhrases [' ']) l1
  let l3 := runSub bracketStep l2
  let l4 := runSub (altStep planTokens [' ']) l3
  let l5 := runSub (classRunStep isHyphen 2 ['-']) l4
  let l6 := runSub hyphenSpaceStep l5
  let l7 := runSub (classRunStep pyIsSpace 2 [' ']) l6
  let l8 := stripEdgeClass l7
  let l9 := runSub (classRunStep commaSemiColonClass 1 [' ']) l8
  String.mk (pyStrip l9)

/-- Embedding of `normalize_parent_name` (`app/masterlist.py`). -/
def normalize_parent_name (s : String) : String :=
  let base := strip_plan_option_tokens s
  let b1 := runSub (classRunStep punctClass2 1 [' ']) base.data
  let b2 := pySplitJoin b1
  String.mk (pyStrip (pyLower b2))

/-! ## `masterlist.py`: parent grouping (`group_variants_exact`) -/

/-- Python `str(name).lower().strip()`, the fallback grouping key. -/
def pyLowerStrip (s : String) : String := String.mk (pyStrip (pyLower s.data))

/-- The grouping key used by `group_variants_exact`: the normalized parent
name, or the lowercased raw name when normalization yields `""`. -/
def groupKeyOf (name : String) : String :=
  let k := normalize_parent_name name
  if k = "" then pyLowerStrip name else k

/-- `defaultdict(list)` append: add `p` to the group keyed `k`, creating the
group at the end if the key is new (Python dict insertion order). -/
def addToGroup :
    List (String × List (String × String)) → String → (String × String) →
    List (String × List (String × String))
  | [], k, p => [(k, [p])]
  | (k', ps) :: rest, k, p =>
    if k' = k then (k', ps ++ [p]) :: rest else (k', ps) :: addToGroup rest k p

/-- Embedding of `group_variants_exact` (`app/masterlist.py`).  The input
dict `code_to_name` is modelled as its association list in iteration
order; the result maps each parent key to its entry list in input order. -/
def group_variants_exact (code_to_name : List (String × String)) :
    List (String × List (String × String)) :=
  code_to_name.foldl (fun gs p => addToGroup gs (groupKeyOf p.2) p) []

/-- Lookup of a parent key in the grouping result (missing key ↦ `[]`). -/
def findGroup (gs : List (String × List (String × String))) (k : String) :
    List (String × String) :=
  match gs.find? (fun g => g.1 = k) with
  | some g => g.2
  | none => []

/-! ## `masterlist.py`: representative selection (`choose_representative`) -/

/-- `has_token(name, token)`: `re.search(rf"\b{token}\b", name, IGNORECASE)`
for a word-character token; searches every position for a word-bounded
case-insensitive occurrence. -/
def searchTokenAux (tok : List Char) : Nat → Option Char → List Char → Bool
  | 0, _, _ => false
  | _ + 1, _, [] => false
  | fuel + 1, prev, c :: cs =>
    if (altStep [tok] [] prev (c :: cs)).isSome then true
    else searchTokenAux tok fuel (some c) cs

def has_token (name : String) (token : String) : Bool :=
  searchTokenAux (pyLower token.data) name.data.length none name.data

/-- Rule 1 of the cascade: `direct` and (`growth` or neither `idcw` nor
`dividend`). -/
def rule1_direct_growth (name : String) : Bool :=
  has_token name "direct" &&
    (has_token name "growth" ||
      (!has_token name "idcw" && !has_token name "dividend"))

/-- A Python JSON-ish value as found in the quote dictionaries. -/
inductive PyVal where
  | null
  | str (s : String)
  | num (q : ℚ)
deriving DecidableEq

/-- Python truthiness of a `PyVal`. -/
def pyTruthy : PyVal → Bool
  | PyVal.null => false
  | PyVal.str s => s ≠ ""
  | PyVal.num q => q ≠ 0

/-- Python `a or b` (value-returning). -/
def pyOr (a b : PyVal) : PyVal := if pyTruthy a then a else b

/-- A quote dictionary (`mftool` scheme quote), modelled as an association
list with distinct keys. -/
def Quote : Type := List (String × PyVal)

/-- `dict.get(k)`: the value under `k`, or Python `None` when missing. -/
def getVal (q : Quote) (k : String) : PyVal :=
  match q.find? (fun p => p.1 = k) with
  | some p => p.2
  | none => PyVal.null

/-- `qc.get("aum") or qc.get("AUM") or qc.get("asset_under_management") or
qc.get("assets_under_management")`. -/
def aumRaw (q : Quote) : PyVal :=
  pyOr (getVal q "aum")
    (pyOr (getVal q "AUM")
      (pyOr (getVal q "asset_under_management")
        (getVal q "assets_under_management")))

def stripCommas (l : List Char) : List Char := l.filter (fun c => c ≠ ',')

def digitsVal (l : List Char) : ℕ :=
  l.foldl (fun a c => 10 * a + (c.toNat - '0'.toNat)) 0

/-- Model of Python `float(...)` on plain decimal literals (optional sign,
digits, optional fraction) — the numeric forms occurring in quote payloads.
Anything else is a parse failure (`ValueError`).  The decimal
`±I.F` denotes the exact rational `±(I·10^k + F) / 10^k`, built with
`mkRat` so concrete parses reduce in the kernel. -/
def parseDecimal? (s : List Char) : Option ℚ :=
  let signAndRest : Int × List Char :=
    match s with
    | '-' :: r => (-1, r)
    | '+' :: r => (1, r)
    | r => (1, r)
  let sign := signAndRest.1
  let r := signAndRest.2
  let intPart := r.takeWhile Char.isDigit
  match r.dropWhile Char.isDigit with
  | [] => if intPart.isEmpty then none else some (mkRat (sign * digitsVal intPart) 1)
  | '.' :: r3 =>
    let fracPart := r3.takeWhile Char.isDigit
    if (r3.dropWhile Char.isDigit).isEmpty && !(intPart.isEmpty && fracPart.isEmpty) then
      some (mkRat (sign * (digitsVal intPart * 10 ^ fracPart.length + digitsVal fracPart))
        (10 ^ fracPart.length))
    else none
  | _ => none

/-- `float(str(aum).replace(",", "")) if aum not in (None, "") else 0.0`,
with parse failures caught as `0.0` (the `except` branch).  A numeric value
round-trips through `str`/`float` unchanged. -/
def aum_val (q : Quote) : ℚ :=
  let a := aumRaw q
  if a = PyVal.null ∨ a = PyVal.str "" then 0
  else
    match a with
    | PyVal.num x => x
    | PyVal.str s => (parseDecimal? (stripCommas s.data)).getD 0
    | PyVal.null => 0

/-- `qc = quote_cache.get(str(code)); if qc and isinstance(qc, dict):` —
the cached AUM value of an entry, or `none` when the cache has no truthy
record for its code. -/
def cachedAumOf (qcache : List (String × Quote)) (p : String × String) : Option ℚ :=
  match qcache.find? (fun r => r.1 = p.1) with
  | some r => if r.2.isEmpty then none else some (aum_val r.2)
  | none => none

/-- The shared best-AUM fold of steps 4 and 5: scan the entries, keeping
the first entry whose value strictly exceeds the best so far. -/
def bestFold (g : String × String → Option ℚ)
    (init : Option (String × String) × ℚ) (entries : List (String × String)) :
    Option (String × String) × ℚ :=
  entries.foldl
    (fun acc p =>
      match g p with
      | some a => if acc.2 < a then (some p, a) else acc
      | none => acc)
    init

/-- Step 4 of `choose_representative`: scan the local quote cache, starting
from `best = None, best_aum = -1.0`. -/
def cache_best (qcache : List (String × Quote)) (entries : List (String × String)) :
    Option (String × String) × ℚ :=
  bestFold (cachedAumOf qcache) (none, -1) entries

/-- Step 5 of `choose_representative`: live `get_scheme_quote` lookups
(exceptions yield `{}`, folded into `fetch`), continuing from the running
`best_aum`. -/
def live_best (fetch : String → Quote) (aum0 : ℚ) (entries : List (String × String)) :
    Option (String × String) × ℚ :=
  bestFold (fun p => some (aum_val (fetch p.1))) (none, aum0) entries

/-- Embedding of `choose_representative` (`app/masterlist.py`).  The
provider `mf` is modelled as an optional quote-fetching function (`none`
when `Mftool()` is unavailable); the result is
`(rep_code, rep_name, reason, score)`. -/
def choose_representative (entries : List (String × String))
    (mf : Option (String → Quote))
    (quote_cache : Option (List (String × Quote))) :
    Option String × Option String × String × ℚ :=
  match entries with
  | [] => (none, none, "empty", 0)
  | e0 :: erest =>
    match (e0 :: erest).find? (fun p => rule1_direct_growth p.2) with
    | some p => (some p.1, some p.2, "direct_growth", 100)
    | none =>
      match (e0 :: erest).find? (fun p => has_token p.2 "direct") with
      | some p => (some p.1, some p.2, "direct", 80)
      | none =>
        match (e0 :: erest).find? (fun p => has_token p.2 "regular" && has_token p.2 "growth") with
        | some p => (some p.1, some p.2, "regular_growth", 60)
        | none =>
          match
            (match quote_cache with
             | some qcache =>
               if qcache.isEmpty then (none, -1) else cache_best qcache (e0 :: erest)
             | none => ((none : Option (String × String)), (-1 : ℚ))) with
          | (some p, a) => (some p.1, some p.2, "highest_aum_cached", a)
          | (none, aum0) =>
            match mf with
            | some fetch =>
              match live_best fetch aum0 (e0 :: erest) with
              | (some p, a) => (some p.1, some p.2, "highest_aum_live", a)
              | (none, _) => (some e0.1, some e0.2, "first_fallback", 10)
            | none => (some e0.1, some e0.2, "first_fallback", 10)

/-- The multiset of AUM values present in the local cache for the entries
(entries with a truthy cache record, in input order). -/
def cachedAums (qcache : List (String × Quote)) (entries : List (String × String)) : List ℚ :=
  entries.filterMap (cachedAumOf qcache)

/-! ## `metrics.py`: the metrics engine

A NAV series (`pandas.Series` of date → price) is modelled as a list of
`(day index, price)` pairs in ascending date order; prices are exact
rationals, and real-valued quantities (powers, square roots) live in `ℝ`.
Provider / disk I/O (`fetch_nav_series`, `fetch_scheme_fees_and_aum`) is
modelled as an explicit environment. -/

/-- `nav.pct_change().dropna()`: simple percentage change between
consecutive prices (empty when fewer than 2 points). -/
def nav_to_returns : List (Int × ℚ) → List ℚ
  | [] => []
  | [_] => []
  | (_, a) :: (d1, b) :: rest => (b / a - 1) :: nav_to_returns ((d1, b) :: rest)

/-- Embedding of `compute_periodic_returns` (`app/metrics.py`): CAGR over
the full period.  The surrounding `try/except` only fires when Python's
`**` raises (negative base with non-integer exponent), which cannot occur
for the positive NAV series this engine consumes; the guards and formula
are translated verbatim. -/
noncomputable def compute_periodic_returns (nav : List (Int × ℚ)) : Option ℝ :=
  match nav with
  | [] => none
  | [_] => none
  | p0 :: p1 :: rest =>
    let lastP := (p1 :: rest).getLast (by simp)
    let start_val := p0.2
    let end_val := lastP.2
    if start_val ≤ 0 then none
    else
      let days : ℤ := lastP.1 - p0.1
      if days ≤ 0 then none
      else
        let years : ℝ := (days : ℝ) / 365
        some (((end_val : ℝ) / (start_val : ℝ)) ^ ((1 : ℝ) / years) - 1)

/-- Embedding of `rolling_return` (`app/metrics.py`). -/
noncomputable def rolling_return (nav : List (Int × ℚ)) (window_days : ℤ) : Option ℝ :=
  match nav with
  | [] => none
  | [_] => none
  | p0 :: p1 :: rest =>
    let lastP := (p0 :: p1 :: rest).getLast (by simp)
    let cutoff := lastP.1 - window_days
    let window_nav := (p0 :: p1 :: rest).filter (fun e => cutoff ≤ e.1)
    if window_nav.length < 2 then none
    else compute_periodic_returns window_nav

/-- Sample standard deviation (`pandas .std(ddof=1)`): `√(Σ(x−x̄)²/(n−1))`. -/
noncomputable def sampleStdDev (l : List ℚ) : ℝ :=
  let n : ℝ := l.length
  let m : ℝ := (l.map (fun x => (x : ℝ))).sum / n
  Real.sqrt ((l.map (fun x => ((x : ℝ) - m) ^ 2)).sum / (n - 1))

/-- Embedding of `annualized_volatility` (`app/metrics.py`). -/
noncomputable def annualized_volatility (returns : List ℚ) : Option ℝ :=
  if returns.length < 2 then none
  else some (sampleStdDev returns * Real.sqrt 252)

/-- Embedding of `annualized_return_from_returns` (`app/metrics.py`). -/
def annualized_return_from_returns (returns : List ℚ) : Option ℚ :=
  if returns.length < 2 then none
  else some (returns.sum / returns.length * 252)

/-- `nav.cummax()` tail: running maxima continuing from `m`. -/
def cummaxAux (m : ℚ) : List ℚ → List ℚ
  | [] => []
  | x :: xs => max m x :: cummaxAux (max m x) xs

/-- `nav.cummax()`: running maxima of a price list. -/
def cummax : List ℚ → List ℚ
  | [] => []
  | x :: xs => x :: cummaxAux x xs

/-- `dd = (nav / running_max) - 1.0` as a list of drawdown values. -/
def drawdowns (prices : List ℚ) : List ℚ :=
  List.zipWith (fun p m => p / m - 1) prices (cummax prices)

/-- `dd.min()` (some value whenever the list is non-empty). -/
def listMin : List ℚ → Option ℚ
  | [] => none
  | x :: xs => some (xs.foldl min x)

/-- Embedding of `max_drawdown` (`app/metrics.py`). -/
def max_drawdown (nav : List (Int × ℚ)) : Option ℚ :=
  if nav.length < 2 then none
  else listMin (drawdowns (nav.map Prod.snd))

/-- Embedding of `sharpe_ratio` (`app/metrics.py`); `ann_vol in (None, 0.0)`
yields `None`. -/
noncomputable def sharpe_of_returns (returns : List ℚ) (risk_free : ℝ) : Option ℝ :=
  if returns.length < 2 then none
  else
    match annualized_return_from_returns returns, annualized_volatility returns with
    | some r, some v => if v = 0 then none else some (((r : ℝ) - risk_free) / v)
    | _, _ => none

/-- Embedding of `sortino_ratio` (`app/metrics.py`). -/
noncomputable def sortino_of_returns (returns : List ℚ) (risk_free : ℝ) : Option ℝ :=
  if returns.length < 2 then none
  else
    let downside := returns.filter (fun r => r < 0)
    if downside.length < 2 then none
    else
      match annualized_return_from_returns returns with
      | none => none
      | some r =>
        let dd := sampleStdDev downside * Real.sqrt 252
        if dd = 0 then none else some (((r : ℝ) - risk_free) / dd)

/-- The record produced by `compute_metrics_for_code`; dates are modelled
as day indices. -/
structure MetricsResult where
  scheme_code : String
  data_points : ℕ
  first_date : Option ℤ
  last_date : Option ℤ
  cagr : Option ℝ
  rolling_1y : Option ℝ
  rolling_3y : Option ℝ
  rolling_5y : Option ℝ
  volatility_annual : Option ℝ
  sharpe : Option ℝ
  sortino : Option ℝ
  max_drawdown : Option ℚ
  expense_ratio_percent : Option ℚ
  exit_load_percent : Option ℚ
  aum : Option ℚ
  scheme_details_raw : Quote
  scheme_quote_raw : Quote
  beta : Option ℝ
  tracking_error : Option ℝ

/-- The initial `out` dict of `compute_metrics_for_code`: everything unset. -/
def initMetricsResult (code : String) : MetricsResult :=
  { scheme_code := code, data_points := 0, first_date := none, last_date := none,
    cagr := none, rolling_1y := none, rolling_3y := none, rolling_5y := none,
    volatility_annual := none, sharpe := none, sortino := none, max_drawdown := none,
    expense_ratio_percent := none, exit_load_percent := none, aum := none,
    scheme_details_raw := [], scheme_quote_raw := [], beta := none, tracking_error := none }

/-- The I/O environment of the metrics engine: `fetch_nav_series` (provider
plus NAV cache, §4.5) and `fetch_scheme_fees_and_aum` (provider detail/quote
payload extraction), both provider-dependent I/O modelled as functions. -/
structure MetricsEnv where
  fetchNav : String → List (Int × ℚ)
  fetchFees : String → Option ℚ × Option ℚ × Option ℚ × Quote × Quote

/-- Embedding of `compute_metrics_for_code` (`app/metrics.py`): fewer than
2 NAV points returns the initial all-`None` record, otherwise every metric
is computed. -/
noncomputable def compute_metrics_for_code (env : MetricsEnv) (code : String)
    (risk_free_rate : ℝ) : MetricsResult :=
  let nav := env.fetchNav code
  if nav.length < 2 then initMetricsResult code
  else
    let returns := nav_to_returns nav
    let fees := env.fetchFees code
    { scheme_code := code
      data_points := nav.length
      first_date := nav.head?.map Prod.fst
      last_date := nav.getLast?.map Prod.fst
      cagr := compute_periodic_returns nav
      rolling_1y := rolling_return nav 365
      rolling_3y := rolling_return nav (365 * 3)
      rolling_5y := rolling_return nav (365 * 5)
      volatility_annual := annualized_volatility returns
      sharpe := sharpe_of_returns returns risk_free_rate
      sortino := sortino_of_returns returns risk_free_rate
      max_drawdown := MFAdvisor.max_drawdown nav
      expense_ratio_percent := fees.1
      exit_load_percent := fees.2.1
      aum := fees.2.2.1
      scheme_details_raw := fees.2.2.2.1
      scheme_quote_raw := fees.2.2.2.2
      beta := none
      tracking_error := none }

/-! ## `metrics.py`: batch computation -/

/-- A per-code result in the batch output dict: a metrics record, or the
`{"scheme_code": str(c), "error": str(e)}` entry recorded when the
worker's future raised. -/
inductive BatchEntry where
  | ok (result : MetricsResult)
  | err (scheme_code : String) (error : String)

def isErrEntry : BatchEntry → Bool
  | BatchEntry.ok _ => false
  | BatchEntry.err _ _ => true

/-- Whether the worker computation for a code raises. -/
def workerFails (worker : String → Except String MetricsResult) (c : String) : Bool :=
  match worker c with
  | Except.error _ => true
  | Except.ok _ => false

/-- Embedding of `compute_metrics_batch` (`app/metrics.py`).  Each code's
future is independent; its outcome (value or exception) is modelled by
`worker`.  `as_completed` only affects dict insertion order, so the
result dict is modelled keyed by code in submission order. -/
def compute_metrics_batch (worker : String → Except String MetricsResult)
    (codes : List String) : List (String × BatchEntry) :=
  codes.map (fun c =>
    (c, match worker c with
        | Except.ok r => BatchEntry.ok r
        | Except.error e => BatchEntry.err c e))

/-! ## `masterlist.py`: masterlist build (`build_master_list_cache`) -/

/-- Embedding of `_normalize` (`app/masterlist.py`):
`" ".join(str(name).lower().strip().split()) if name else ""`. -/
def pyNormalizeName (s : String) : String :=
  if s = "" then "" else String.mk (pySplitJoin (pyStrip (pyLower s.data)))

/-- Python dict assignment `d[k] = v` on an association list: update in
place, or append when the key is new. -/
def dictInsert : List (String × String) → String → String → List (String × String)
  | [], k, v => [(k, v)]
  | (k', v') :: rest, k, v =>
    if k' = k then (k, v) :: rest else (k', v') :: dictInsert rest k v

/-- The on-disk masterlist payload `{"meta": {"ts": ...}, "master": ...}`
(its absence also models an unreadable file, which the code treats the
same way). -/
structure DiskPayload where
  ts : ℤ
  master : List (String × String)

/-- Embedding of `build_master_list_cache` (`app/masterlist.py`):
in-memory cache, fresh disk cache, then a full rebuild from the provider's
code enumeration; enumeration failure falls back to the in-memory cache
(empty when there is none).  The per-code activity check
(`_check_code_active`, provider I/O) is the parameter `isActive`; workers
finish in nondeterministic order, which only affects dict insertion order,
so the build loop is modelled in submission order. -/
def build_master_list_cache (force : Bool) (inMem : Option (List (String × String)))
    (disk : Option DiskPayload) (now ttl : ℤ)
    (enumerate : Except String (List (String × String)))
    (isActive : String → String → Bool) : List (String × String) :=
  if inMem.isSome && !force then inMem.getD []
  else
    let diskHit : Option (List (String × String)) :=
      match disk, force with
      | some payload, false =>
        if now - payload.ts ≤ ttl then some payload.master else none
      | _, _ => none
    match diskHit with
    | some m => m
    | none =>
      match enumerate with
      | Except.error _ =>
        match inMem with
        | some m => if m.isEmpty then [] else m
        | none => []
      | Except.ok codes_map =>
        codes_map.foldl
          (fun master cn =>
            if isActive cn.1 cn.2 then dictInsert master (pyNormalizeName cn.2) cn.1
            else master)
          []

/-! ## Concrete inputs used by the witnesses -/

def c2ExampleL1 : List (String × String) :=
  [("001", "Acme Fund - Direct - Growth"), ("002", "Beta Fund")]

def c2ExampleL2 : List (String × String) :=
  [("002", "Beta Fund"), ("001", "Acme Fund - Direct - Growth")]

def c4Entries : List (String × String) :=
  [("001", "Acme Bond Fund A"), ("002", "Acme Bond Fund B")]

def c4Cache : List (String × Quote) :=
  [("002", [("aum", PyVal.str "1,234.5")])]

def c5Nav : List (Int × ℚ) := [(0, 100), (730, 121)]

def c6Nav : List (Int × ℚ) := [(0, 100), (1, 120), (2, 90), (3, 110)]

def c7Env : MetricsEnv :=
  { fetchNav := fun _ => [(0, 100)]
    fetchFees := fun _ => (none, none, none, [], []) }

def c8Codes : List String := ["101", "102", "103", "104", "105"]

def c8Worker : String → Except String MetricsResult :=
  fun c => if c = "103" then Except.error "boom" else Except.ok (initMetricsResult c)

/-! ## Lemmas about grouping -/

lemma findGroup_nil (k : String) : findGroup [] k = [] := rfl

lemma findGroup_cons (kg : String) (ps : List (String × String))
    (gs : List (String × List (String × String))) (k' : String) :
    findGroup ((kg, ps) :: gs) k' = if kg = k' then ps else findGroup gs k' := by
  by_cases h : kg = k' <;> simp [findGroup, List.find?, h]

lemma addToGroup_hit (kg : String) (ps : List (String × String))
    (gs : List (String × List (String × String))) (p : String × String) :
    addToGroup ((kg, ps) :: gs) kg p = (kg, ps ++ [p]) :: gs := by
  simp [addToGroup]

lemma addToGroup_miss (kg k : String) (ps : List (String × String))
    (gs : List (String × List (String × String))) (p : String × String) (h : kg ≠ k) :
    addToGroup ((kg, ps) :: gs) k p = (kg, ps) :: addToGroup gs k p := by
  simp [addToGroup, h]

lemma findGroup_addToGroup (gs : List (String × List (String × String)))
    (k : String) (p : String × String) (k' : String) :
    findGroup (addToGroup gs k p) k' =
      if k' = k then findGroup gs k' ++ [p] else findGroup gs k' := by
  induction gs with
  | nil =>
    by_cases h : k' = k
    · subst h; simp [addToGroup, findGroup_cons, findGroup_nil]
    · have h2 : ¬(k = k') := fun hh => h hh.symm
      simp [addToGroup, findGroup_cons, findGroup_nil, h, h2]
  | cons g rest ih =>
    obtain ⟨kg, ps⟩ := g
    by_cases hgk : kg = k
    · subst hgk
      rw [addToGroup_hit, findGroup_cons, findGroup_cons]
      by_cases h : kg = k'
      · subst h; simp
      · have h' : ¬(k' = kg) := fun hh => h hh.symm
        rw [if_neg h, if_neg h, if_neg h']
    · rw [addToGroup_miss kg k ps rest p hgk, findGroup_cons, findGroup_cons, ih]
      by_cases h : kg = k'
      · subst h
        rw [if_pos rfl, if_pos rfl, if_neg hgk]
      · rw [if_neg h, if_neg h]

lemma findGroup_fold (l : List (String × String)) :
    ∀ (gs : List (String × List (String × String))) (k : String),
      findGroup (l.foldl (fun gs p => addToGroup gs (groupKeyOf p.2) p) gs) k =
        findGroup gs k ++ l.filter (fun p => groupKeyOf p.2 = k) := by
  induction l with
  | nil => intro gs k; simp
  | cons p rest ih =>
    intro gs k
    simp only [List.foldl_cons, List.filter_cons]
    rw [ih, findGroup_addToGroup]
    by_cases h : groupKeyOf p.2 = k
    · rw [if_pos h.symm]
      simp [h]
    · have h' : ¬(k = groupKeyOf p.2) := fun hh => h hh.symm
      rw [if_neg h']
      simp [h]

lemma findGroup_group_variants_exact (l : List (String × String)) (k : String) :
    findGroup (group_variants_exact l) k = l.filter (fun p => groupKeyOf p.2 = k) := by
  simpa [findGroup_nil] using findGroup_fold l [] k

/-! ## Lemmas about the best-AUM folds -/

lemma bestFold_nil (g : String × String → Option ℚ) (init : Option (String × String) × ℚ) :
    bestFold g init [] = init := rfl

lemma bestFold_cons (g : String × String → Option ℚ) (init : Option (String × String) × ℚ)
    (p : String × String) (rest : List (String × String)) :
    bestFold g init (p :: rest) =
      bestFold g
        (match g p with
         | some a => if init.2 < a then (some p, a) else init
         | none => init) rest := rfl

/-- Full characterisation of the best-AUM fold: either nothing beat the
initial score (result unchanged), or the result is an entry attaining the
maximum of the candidate values. -/
lemma bestFold_spec (g : String × String → Option ℚ) :
    ∀ (entries : List (String × String)) (init : Option (String × String) × ℚ),
      (bestFold g init entries = init ∧
        ∀ p ∈ entries, ∀ a, g p = some a → a ≤ init.2) ∨
      (∃ p, p ∈ entries ∧ ∃ a, g p = some a ∧ bestFold g init entries = (some p, a) ∧
        init.2 < a ∧ ∀ q ∈ entries, ∀ b, g q = some b → b ≤ a) := by
  intro entries
  induction entries with
  | nil => intro init; exact Or.inl ⟨rfl, by simp⟩
  | cons p rest ih =>
    intro init
    rw [bestFold_cons]
    cases hg : g p with
    | none =>
      rcases ih init with ⟨hres, hbnd⟩ | ⟨q, hq, a, hga, hres, hlt, hbnd⟩
      · refine Or.inl ⟨by simpa [hg] using hres, ?_⟩
        intro r hr b hb
        rcases List.mem_cons.mp hr with rfl | hr
        · simp [hg] at hb
        · exact hbnd r hr b hb
      · refine Or.inr ⟨q, List.mem_cons_of_mem _ hq, a, hga, by simpa [hg] using hres, hlt, ?_⟩
        intro r hr b hb
        rcases List.mem_cons.mp hr with rfl | hr
        · simp [hg] at hb
        · exact hbnd r hr b hb
    | some a =>
      by_cases hlt : init.2 < a
      · rcases ih (some p, a) with ⟨hres, hbnd⟩ | ⟨q, hq, a', hga', hres, hlt', hbnd⟩
        · refine Or.inr ⟨p, List.mem_cons_self _ _, a, hg, ?_, hlt, ?_⟩
          · simpa [hg, hlt] using hres
          · intro r hr b hb
            rcases List.mem_cons.mp hr with rfl | hr
            · rw [hg] at hb; exact le_of_eq (Option.some_injective _ hb).symm
            · exact hbnd r hr b hb
        · refine Or.inr ⟨q, List.mem_cons_of_mem _ hq, a', hga', ?_, lt_trans hlt hlt', ?_⟩
          · simpa [hg, hlt] using hres
          · intro r hr b hb
            rcases List.mem_cons.mp hr with rfl | hr
            · rw [hg] at hb
              exact le_of_lt (lt_of_le_of_lt (le_of_eq (Option.some_injective _ hb).symm) hlt')
            · exact hbnd r hr b hb
      · rcases ih init with ⟨hres, hbnd⟩ | ⟨q, hq, a', hga', hres, hlt', hbnd⟩
        · refine Or.inl ⟨by simpa [hg, hlt] using hres, ?_⟩
          intro r hr b hb
          rcases List.mem_cons.mp hr with rfl | hr
          · rw [hg] at hb
            exact le_of_not_lt (by simpa [Option.some_injective _ hb] using hlt)
          · exact hbnd r hr b hb
        · refine Or.inr ⟨q, List.mem_cons_of_mem _ hq, a', hga', by simpa [hg, hlt] using hres, hlt', ?_⟩
          intro r hr b hb
          rcases List.mem_cons.mp hr with rfl | hr
          · rw [hg] at hb
            have : b ≤ init.2 := le_of_not_lt (by simpa [Option.some_injective _ hb] using hlt)
            exact le_of_lt (lt_of_le_of_lt this hlt')
          · exact hbnd r hr b hb

lemma bestFold_fst_mem (g : String × String → Option ℚ) (entries : List (String × String))
    (init : Option (String × String) × ℚ) (p : String × String)
    (h : (bestFold g init entries).1 = some p) : init.1 = some p ∨ p ∈ entries := by
  rcases bestFold_spec g entries init with ⟨hres, _⟩ | ⟨q, hq, a, _, hres, _, _⟩
  · rw [hres] at h; exact Or.inl h
  · rw [hres] at h
    obtain rfl : q = p := Option.some_injective _ h
    exact Or.inr hq

/-! # Claim theorems -/

/-- C1: Name normalization collapses plan/option variants: the two
differently-punctuated variants of the spec's example normalize to the
identical parent key (both to `"acme fund"`), as does a bracketed variant. -/
theorem c1_normalization_collapses_variants :
    normalize_parent_name "Acme Fund - Direct Plan - Growth Option" =
      normalize_parent_name "Acme Fund-Direct-Growth" ∧
    normalize_parent_name "Acme Fund - Direct Plan - Growth Option" = "acme fund" ∧
    normalize_parent_name "Acme Fund (Direct Plan) Growth" = "acme fund" := by
  exact ⟨by decide, by decide, by decide⟩

/-- C2: Parent grouping is a total, order-independent partition: the group
of key `k` contains exactly the input pairs whose key (normalized parent
name, or lowercased raw name when normalization is empty) is `k`, so under
any permutation of the input the per-key membership is identical, and
every pair lands in exactly the group of its own key. -/
theorem c2_grouping_total_partition (l1 l2 : List (String × String)) (hperm : l1.Perm l2) :
    (∀ (k : String) (p : String × String),
      p ∈ findGroup (group_variants_exact l1) k ↔ p ∈ findGroup (group_variants_exact l2) k) ∧
    (∀ p ∈ l1, p ∈ findGroup (group_variants_exact l1) (groupKeyOf p.2) ∧
      ∀ k, p ∈ findGroup (group_variants_exact l1) k → k = groupKeyOf p.2) := by
  constructor
  · intro k p
    rw [findGroup_group_variants_exact, findGroup_group_variants_exact]
    simp only [List.mem_filter, decide_eq_true_eq]
    exact and_congr_left fun _ => hperm.mem_iff
  · intro p hp
    constructor
    · rw [findGroup_group_variants_exact]
      simp [List.mem_filter, hp]
    · intro k hk
      rw [findGroup_group_variants_exact] at hk
      simp only [List.mem_filter, decide_eq_true_eq] at hk
      exact hk.2.symm

theorem c2_grouping_total_partition_witness :
    (("001", "Acme Fund - Direct - Growth") ∈ findGroup (group_variants_exact c2ExampleL1) "acme fund" ↔
      ("001", "Acme Fund - Direct - Growth") ∈ findGroup (group_variants_exact c2ExampleL2) "acme fund") ∧
    ("001", "Acme Fund - Direct - Growth") ∈ findGroup (group_variants_exact c2ExampleL1) "acme fund" :=
  ⟨(c2_grouping_total_partition c2ExampleL1 c2ExampleL2
      (List.Perm.swap ("002", "Beta Fund") ("001", "Acme Fund - Direct - Growth") [])).1
      "acme fund" ("001", "Acme Fund - Direct - Growth"),
    by decide⟩

/-- C3: Representative cascade rule 1: whenever the first entry whose name
matches the direct-growth predicate (whole-word `direct` and (`growth` or
neither `idcw` nor `dividend`)) is `(c, n)`, the selector returns exactly
that entry with reason `direct_growth` and score 100, for every cache and
provider. -/
theorem c3_rule1_direct_growth_first (entries : List (String × String))
    (mf : Option (String → Quote)) (qc : Option (List (String × Quote)))
    (c n : String)
    (hfind : entries.find? (fun p => rule1_direct_growth p.2) = some (c, n)) :
    choose_representative entries mf qc = (some c, some n, "direct_growth", 100) := by
  cases entries with
  | nil => simp [List.find?] at hfind
  | cons e0 erest => simp [choose_representative, hfind]

theorem c3_rule1_direct_growth_first_witness :
    choose_representative
      [("001", "Acme Fund - Regular - Growth"), ("002", "Acme Fund - Direct - Growth")]
      none none =
      (some "002", some "Acme Fund - Direct - Growth", "direct_growth", 100) :=
  c3_rule1_direct_growth_first _ none none "002" "Acme Fund - Direct - Growth" (by decide)

/-- C10 (implicit): the selector never leaves its candidate set: for every
non-empty entries list, every quote cache and every provider behaviour,
the returned `(rep_code, rep_name)` is one of the input entries. -/
theorem c10_representative_membership (entries : List (String × String))
    (mf : Option (String → Quote)) (qc : Option (List (String × Quote)))
    (hne : entries ≠ []) :
    ∃ c n, (c, n) ∈ entries ∧
      (choose_representative entries mf qc).1 = some c ∧
      (choose_representative entries mf qc).2.1 = some n := by
  cases entries with
  | nil => exact absurd rfl hne
  | cons e0 erest =>
    simp only [choose_representative]
    cases h1 : (e0 :: erest).find? (fun p => rule1_direct_growth p.2) with
    | some p =>
      exact ⟨p.1, p.2, by simpa using List.mem_of_find?_eq_some h1, rfl, rfl⟩
    | none =>
    cases h2 : (e0 :: erest).find? (fun p => has_token p.2 "direct") with
    | some p =>
      exact ⟨p.1, p.2, by simpa using List.mem_of_find?_eq_some h2, rfl, rfl⟩
    | none =>
    cases h3 : (e0 :: erest).find? (fun p => has_token p.2 "regular" && has_token p.2 "growth") with
    | some p =>
      exact ⟨p.1, p.2, by simpa using List.mem_of_find?_eq_some h3, rfl, rfl⟩
    | none =>
    cases qc with
    | none =>
      cases mf with
      | none => exact ⟨e0.1, e0.2, by simp, rfl, rfl⟩
      | some fetch =>
        cases hl : live_best fetch (-1) (e0 :: erest) with
        | mk b v =>
          cases b with
          | none => exact ⟨e0.1, e0.2, by simp [hl], by simp [hl], by simp [hl]⟩
          | some p =>
            have hm : p ∈ e0 :: erest := by
              rcases bestFold_fst_mem _ _ _ p (by simp [live_best] at hl ⊢; exact congrArg Prod.fst hl) with h | h
              · simp at h
              · exact h
            exact ⟨p.1, p.2, by simpa using hm, by simp [hl], by simp [hl]⟩
    | some qcache =>
      by_cases hq : qcache.isEmpty
      · cases mf with
        | none => exact ⟨e0.1, e0.2, by simp [hq], by simp [hq], by simp [hq]⟩
        | some fetch =>
          cases hl : live_best fetch (-1) (e0 :: erest) with
          | mk b v =>
            cases b with
            | none => exact ⟨e0.1, e0.2, by simp [hq, hl], by simp [hq, hl], by simp [hq, hl]⟩
            | some p =>
              have hm : p ∈ e0 :: erest := by
                rcases bestFold_fst_mem _ _ _ p (by simp [live_best] at hl ⊢; exact congrArg Prod.fst hl) with h | h
                · simp at h
                · exact h
              exact ⟨p.1, p.2, by simpa using hm, by simp [hq, hl], by simp [hq, hl]⟩
      · cases hc : cache_best qcache (e0 :: erest) with
        | mk b v =>
          cases b with
          | some p =>
            have hm : p ∈ e0 :: erest := by
              rcases bestFold_fst_mem _ _ _ p (by simp [cache_best] at hc ⊢; exact congrArg Prod.fst hc) with h | h
              · simp at h
              · exact h
            exact ⟨p.1, p.2, by simpa using hm, by simp [hq, hc], by simp [hq, hc]⟩
          | none =>
            cases mf with
            | none => exact ⟨e0.1, e0.2, by simp [hq, hc], by simp [hq, hc], by simp [hq, hc]⟩
            | some fetch =>
              cases hl : live_best fetch v (e0 :: erest) with
              | mk b' v' =>
                cases b' with
                | none => exact ⟨e0.1, e0.2, by simp [hq, hc, hl], by simp [hq, hc, hl], by simp [hq, hc, hl]⟩
                | some p =>
                  have hm : p ∈ e0 :: erest := by
                    rcases bestFold_fst_mem _ _ _ p (by simp [live_best] at hl ⊢; exact congrArg Prod.fst hl) with h | h
                    · simp at h
                    · exact h
                  exact ⟨p.1, p.2, by simpa using hm, by simp [hq, hc, hl], by simp [hq, hc, hl]⟩

lemma cache_best_isEmpty (qcache : List (String × Quote)) (entries : List (String × String))
    (hq : qcache.isEmpty) : cache_best qcache entries = (none, -1) := by
  rcases bestFold_spec (cachedAumOf qcache) entries (none, -1) with ⟨hres, _⟩ | ⟨q, _, b, hgb, _, _, _⟩
  · exact hres
  · cases qcache with
    | nil => simp [cachedAumOf, List.find?] at hgb
    | cons _ _ => simp at hq

/-- C4: Representative cascade steps 4–5: when no entry matches rules 1–3,
(i) a successful scan of the local quote cache yields exactly that entry
with reason `highest_aum_cached`, and its score is a cached AUM value that
bounds all cached AUM values; (ii) the live reason `highest_aum_live`
occurs only when the cache scan yields nothing; (iii) when all cached AUM
values are non-negative, the cache scan yields nothing exactly when no AUM
is found in the local cache at all. -/
theorem c4_aum_cached_before_live (entries : List (String × String))
    (mf : Option (String → Quote)) (qcache : List (String × Quote))
    (h1 : entries.find? (fun p => rule1_direct_growth p.2) = none)
    (h2 : entries.find? (fun p => has_token p.2 "direct") = none)
    (h3 : entries.find? (fun p => has_token p.2 "regular" && has_token p.2 "growth") = none) :
    (∀ (p : String × String) (a : ℚ), ¬qcache.isEmpty →
      cache_best qcache entries = (some p, a) →
      choose_representative entries mf (some qcache)
          = (some p.1, some p.2, "highest_aum_cached", a) ∧
        a ∈ cachedAums qcache entries ∧ ∀ x ∈ cachedAums qcache entries, x ≤ a) ∧
    ((choose_representative entries mf (some qcache)).2.2.1 = "highest_aum_live" →
      (cache_best qcache entries).1 = none) ∧
    ((∀ x ∈ cachedAums qcache entries, 0 ≤ x) → (cache_best qcache entries).1 = none →
      cachedAums qcache entries = []) := by
  refine ⟨?_, ?_, ?_⟩
  · intro p a hq hcb
    cases entries with
    | nil => rw [cache_best, bestFold_nil] at hcb; simp at hcb
    | cons e0 erest =>
      have hmax :
          a ∈ cachedAums qcache (e0 :: erest) ∧
            ∀ x ∈ cachedAums qcache (e0 :: erest), x ≤ a := by
        rcases bestFold_spec (cachedAumOf qcache) (e0 :: erest) (none, -1) with
          ⟨hres, _⟩ | ⟨q, hmem, b, hgb, hres, _, hbnd⟩
        · rw [cache_best, hres] at hcb; simp at hcb
        · rw [cache_best, hres] at hcb
          have hfst := congrArg Prod.fst hcb
          have hsnd := congrArg Prod.snd hcb
          simp only [] at hfst hsnd
          obtain rfl : q = p := Option.some_injective _ hfst
          subst hsnd
          refine ⟨List.mem_filterMap.mpr ⟨q, hmem, hgb⟩, ?_⟩
          intro x hx
          rcases List.mem_filterMap.mp hx with ⟨r, hr, hgr⟩
          exact hbnd r hr x hgr
      refine ⟨?_, hmax.1, hmax.2⟩
      simp [choose_representative, h1, h2, h3, hq, hcb]
  · intro hreason
    cases entries with
    | nil => rw [cache_best, bestFold_nil]
    | cons e0 erest =>
      by_cases hq : qcache.isEmpty
      · rw [cache_best_isEmpty qcache (e0 :: erest) hq]
      · cases hc : cache_best qcache (e0 :: erest) with
        | mk b v =>
          cases b with
          | some p => simp [choose_representative, h1, h2, h3, hq, hc] at hreason
          | none => rfl
  · intro hnn hnone
    rcases bestFold_spec (cachedAumOf qcache) entries (none, -1) with
      ⟨hres, hbnd⟩ | ⟨q, _, b, _, hres, _, _⟩
    · cases hx : cachedAums qcache entries with
      | nil => rfl
      | cons x xs =>
        have hxmem : x ∈ cachedAums qcache entries := by
          rw [hx]; exact List.mem_cons_self _ _
        rcases List.mem_filterMap.mp hxmem with ⟨r, hr, hgr⟩
        have hle : x ≤ -1 := hbnd r hr x hgr
        have hge : (0 : ℚ) ≤ x := hnn x hxmem
        linarith
    · rw [cache_best, hres] at hnone; simp at hnone

theorem c4_aum_cached_before_live_witness :
    choose_representative c4Entries none (some c4Cache)
        = (some "002", some "Acme Bond Fund B", "highest_aum_cached", mkRat 2469 2) ∧
      mkRat 2469 2 ∈ cachedAums c4Cache c4Entries ∧
      ∀ x ∈ cachedAums c4Cache c4Entries, x ≤ mkRat 2469 2 :=
  (c4_aum_cached_before_live c4Entries none c4Cache (by decide) (by decide) (by decide)).1
    ("002", "Acme Bond Fund B") (mkRat 2469 2) (by decide) (by decide)

theorem c10_representative_membership_witness :
    ∃ c n, (c, n) ∈ [("001", "Acme Bond Fund A"), ("002", "Acme Bond Fund B")] ∧
      (choose_representative [("001", "Acme Bond Fund A"), ("002", "Acme Bond Fund B")]
        none (some [("002", [("aum", PyVal.str "1,234.5")])])).1 = some c ∧
      (choose_representative [("001", "Acme Bond Fund A"), ("002", "Acme Bond Fund B")]
        none (some [("002", [("aum", PyVal.str "1,234.5")])])).2.1 = some n :=
  c10_representative_membership _ none (some [("002", [("aum", PyVal.str "1,234.5")])])
    (by decide)

/-- C5: CAGR definition and round trip: for a NAV series with ≥ 2 points,
head `(d0, start)` and last `(d1, end)`, the result is
`(end/start)^(365/days) − 1` when `start > 0` and `days > 0`, and `None`
when `start ≤ 0` or `days ≤ 0` (`days = d1 − d0`). -/
theorem c5_cagr_formula (nav : List (Int × ℚ)) (d0 d1 : ℤ) (sv ev : ℚ)
    (hlen : 2 ≤ nav.length)
    (hhead : nav.head? = some (d0, sv))
    (hlast : nav.getLast? = some (d1, ev)) :
    (0 < sv → 0 < d1 - d0 →
      compute_periodic_returns nav =
        some (((ev : ℝ) / (sv : ℝ)) ^ ((365 : ℝ) / ((d1 - d0 : ℤ) : ℝ)) - 1)) ∧
    (sv ≤ 0 ∨ d1 - d0 ≤ 0 → compute_periodic_returns nav = none) := by
  cases nav with
  | nil => simp at hlen
  | cons p0 tl =>
  cases tl with
  | nil => norm_num at hlen
  | cons p1 rest =>
    have hp0 : p0 = (d0, sv) := by simpa using hhead
    have hne : (p1 :: rest) ≠ [] := by simp
    have hlast' : (p1 :: rest).getLast hne = (d1, ev) := by
      have h := hlast
      rw [List.getLast?_cons_cons, List.getLast?_eq_getLast _ hne] at h
      exact Option.some_injective _ h
    subst hp0
    constructor
    · intro hsv hdays
      simp only [compute_periodic_returns]
      rw [hlast']
      rw [if_neg (not_le.mpr hsv), if_neg (not_le.mpr hdays)]
      congr 1
      rw [one_div_div]
    · intro h
      simp only [compute_periodic_returns]
      rw [hlast']
      rcases h with hsv | hdays
      · rw [if_pos hsv]
      · by_cases hsv2 : sv ≤ 0
        · rw [if_pos hsv2]
        · rw [if_neg hsv2, if_pos hdays]

theorem c5_cagr_formula_witness :
    compute_periodic_returns c5Nav = some ((1 : ℝ) / 10) := by
  have h := (c5_cagr_formula c5Nav 0 730 100 121 (by decide) (by decide) (by decide)).1
    (by norm_num) (by decide)
  rw [h]
  have hc : (((121 : ℚ) : ℝ) / ((100 : ℚ) : ℝ)) = ((11 : ℝ) / 10) ^ (2 : ℕ) := by
    push_cast
    norm_num
  have he : ((365 : ℝ) / (((730 : ℤ) - 0 : ℤ) : ℝ)) = 1 / 2 := by
    push_cast
    norm_num
  rw [hc, he, ← Real.rpow_natCast ((11 : ℝ) / 10) 2,
    ← Real.rpow_mul (by norm_num : (0 : ℝ) ≤ 11 / 10)]
  norm_num

/-! ## Lemmas about drawdowns and list minima -/

lemma foldlMin_mem (xs : List ℚ) : ∀ x : ℚ, xs.foldl min x ∈ x :: xs := by
  induction xs with
  | nil => intro x; simp
  | cons y ys ih =>
    intro x
    rw [List.foldl_cons]
    rcases List.mem_cons.mp (ih (min x y)) with h | h
    · rw [h]
      rcases min_choice x y with hm | hm
      · rw [hm]; exact List.mem_cons_self _ _
      · rw [hm]; exact List.mem_cons.mpr (Or.inr (List.mem_cons_self _ _))
    · exact List.mem_cons.mpr (Or.inr (List.mem_cons.mpr (Or.inr h)))

lemma foldlMin_le_init (xs : List ℚ) : ∀ x : ℚ, xs.foldl min x ≤ x := by
  induction xs with
  | nil => intro x; simp
  | cons y ys ih =>
    intro x
    rw [List.foldl_cons]
    exact le_trans (ih (min x y)) (min_le_left x y)

lemma foldlMin_le_mem (xs : List ℚ) : ∀ x y : ℚ, y ∈ xs → xs.foldl min x ≤ y := by
  induction xs with
  | nil => intro x y h; simp at h
  | cons z zs ih =>
    intro x y hy
    rw [List.foldl_cons]
    rcases List.mem_cons.mp hy with rfl | hy
    · exact le_trans (foldlMin_le_init zs (min x y)) (min_le_right x y)
    · exact ih (min x z) y hy

lemma le_foldlMin (xs : List ℚ) : ∀ x c : ℚ, c ≤ x → (∀ y ∈ xs, c ≤ y) →
    c ≤ xs.foldl min x := by
  induction xs with
  | nil => intro x c h _; simpa using h
  | cons z zs ih =>
    intro x c hx hall
    rw [List.foldl_cons]
    exact ih (min x z) c (le_min hx (hall z (List.mem_cons_self _ _)))
      (fun y hy => hall y (List.mem_cons_of_mem _ hy))

lemma drawdowns_tail_nonneg_iff (l : List ℚ) :
    ∀ m : ℚ, 0 < m → (∀ x ∈ l, 0 < x) →
      ((∀ d ∈ List.zipWith (fun p mx => p / mx - 1) l (cummaxAux m l), 0 ≤ d) ↔
        List.Chain' (· ≤ ·) (m :: l)) := by
  induction l with
  | nil => intro m hm hl; simp
  | cons x xs ih =>
    intro m hm hl
    have hx : 0 < x := hl x (List.mem_cons_self _ _)
    have hmx : 0 < max m x := lt_max_of_lt_right hx
    rw [cummaxAux]
    simp only [List.zipWith_cons_cons, List.mem_cons, forall_eq_or_imp]
    rw [List.chain'_cons]
    constructor
    · rintro ⟨h1, h2⟩
      have hle : max m x ≤ x := (one_le_div hmx).mp (by linarith)
      have hmlex : m ≤ x := le_trans (le_max_left m x) hle
      have hmaxeq : max m x = x := max_eq_right hmlex
      rw [hmaxeq] at h2
      exact ⟨hmlex, (ih x hx (fun z hz => hl z (List.mem_cons_of_mem _ hz))).mp h2⟩
    · rintro ⟨hmlex, hchain⟩
      have hmaxeq : max m x = x := max_eq_right hmlex
      constructor
      · rw [hmaxeq, div_self (ne_of_gt hx)]
        norm_num
      · rw [hmaxeq]
        exact (ih x hx (fun z hz => hl z (List.mem_cons_of_mem _ hz))).mpr hchain

lemma drawdowns_tail_nonpos (l : List ℚ) :
    ∀ m : ℚ, 0 < m → (∀ x ∈ l, 0 < x) →
      ∀ d ∈ List.zipWith (fun p mx => p / mx - 1) l (cummaxAux m l), d ≤ 0 := by
  induction l with
  | nil => intro m _ _ d hd; simp at hd
  | cons x xs ih =>
    intro m hm hl d hd
    have hx : 0 < x := hl x (List.mem_cons_self _ _)
    have hmx : 0 < max m x := lt_max_of_lt_right hx
    rw [cummaxAux] at hd
    simp only [List.zipWith_cons_cons, List.mem_cons] at hd
    rcases hd with rfl | hd
    · have : x / max m x ≤ 1 := (div_le_one hmx).mpr (le_max_right m x)
      linarith
    · exact ih (max m x) hmx (fun z hz => hl z (List.mem_cons_of_mem _ hz)) d hd

/-- C6: Max drawdown: for NAV series (positive prices, ≥ 2 points) the
result is the minimum of the drawdown series `(price / running max) − 1`,
it is never positive, and it is `0` exactly when the price sequence never
dips below its running peak (is non-decreasing). -/
theorem c6_max_drawdown_min_formula (nav : List (Int × ℚ)) (hlen : 2 ≤ nav.length)
    (hpos : ∀ p ∈ nav, 0 < p.2) :
    ∃ m, max_drawdown nav = some m ∧
      m ∈ drawdowns (nav.map Prod.snd) ∧
      (∀ d ∈ drawdowns (nav.map Prod.snd), m ≤ d) ∧
      m ≤ 0 ∧
      (m = 0 ↔ List.Pairwise (· ≤ ·) (nav.map Prod.snd)) := by
  cases nav with
  | nil => simp at hlen
  | cons q0 tl =>
  cases tl with
  | nil => norm_num at hlen
  | cons q1 rest =>
    have hq0 : 0 < q0.2 := hpos q0 (List.mem_cons_self _ _)
    have hlpos : ∀ x ∈ q1.2 :: rest.map Prod.snd, 0 < x := by
      intro x hx
      rcases List.mem_cons.mp hx with rfl | hx
      · exact hpos q1 (by simp)
      · rcases List.mem_map.mp hx with ⟨p, hp, rfl⟩
        exact hpos p (by simp [hp])
    have hhead0 : q0.2 / q0.2 - 1 = 0 := by
      rw [div_self (ne_of_gt hq0)]; ring
    have hdd : drawdowns ((q0 :: q1 :: rest).map Prod.snd)
        = (q0.2 / q0.2 - 1) ::
          List.zipWith (fun p mx => p / mx - 1) (q1.2 :: rest.map Prod.snd)
            (cummaxAux q0.2 (q1.2 :: rest.map Prod.snd)) := rfl
    set tdd := List.zipWith (fun p mx => p / mx - 1) (q1.2 :: rest.map Prod.snd)
      (cummaxAux q0.2 (q1.2 :: rest.map Prod.snd)) with htdd
    have hlen2 : ¬((q0 :: q1 :: rest).length < 2) := by
      simp [List.length_cons]
    have hmd : max_drawdown (q0 :: q1 :: rest) = some (tdd.foldl min 0) := by
      rw [max_drawdown, if_neg hlen2, hdd, hhead0]
      rfl
    refine ⟨tdd.foldl min 0, hmd, ?_, ?_, ?_, ?_⟩
    · rw [hdd, hhead0]
      exact foldlMin_mem tdd 0
    · intro d hd
      rw [hdd, hhead0] at hd
      rcases List.mem_cons.mp hd with rfl | hd
      · exact foldlMin_le_init tdd 0
      · exact foldlMin_le_mem tdd 0 d hd
    · exact foldlMin_le_init tdd 0
    · constructor
      · intro hm0
        have hnn : ∀ d ∈ tdd, 0 ≤ d := by
          intro d hd
          have := foldlMin_le_mem tdd 0 d hd
          linarith [hm0 ▸ this]
        have hchain := (drawdowns_tail_nonneg_iff (q1.2 :: rest.map Prod.snd) q0.2 hq0 hlpos).mp hnn
        have : List.Chain' (· ≤ ·) ((q0 :: q1 :: rest).map Prod.snd) := hchain
        exact List.chain'_iff_pairwise.mp this
      · intro hpw
        have hchain : List.Chain' (· ≤ ·) (q0.2 :: q1.2 :: rest.map Prod.snd) :=
          List.chain'_iff_pairwise.mpr hpw
        have hnn := (drawdowns_tail_nonneg_iff (q1.2 :: rest.map Prod.snd) q0.2 hq0 hlpos).mpr hchain
        exact le_antisymm (foldlMin_le_init tdd 0) (le_foldlMin tdd 0 0 le_rfl hnn)

theorem c6_max_drawdown_min_formula_witness :
    (∃ m, max_drawdown c6Nav = some m ∧
      m ∈ drawdowns (c6Nav.map Prod.snd) ∧
      (∀ d ∈ drawdowns (c6Nav.map Prod.snd), m ≤ d) ∧
      m ≤ 0 ∧
      (m = 0 ↔ List.Pairwise (· ≤ ·) (c6Nav.map Prod.snd))) ∧
    max_drawdown c6Nav = some (-(1 / 4 : ℚ)) := by
  refine ⟨c6_max_drawdown_min_formula c6Nav (by decide) (by decide), ?_⟩
  have h2 : cummax [(100 : ℚ), 120, 90, 110] = [100, 120, 120, 120] := by
    rw [cummax, cummaxAux, cummaxAux, cummaxAux, cummaxAux]
    norm_num [max_def]
  have h3 : drawdowns [(100 : ℚ), 120, 90, 110] = [0, 0, -(1 / 4), -(1 / 12)] := by
    rw [drawdowns, h2]
    simp only [List.zipWith_cons_cons, List.zipWith_nil_left]
    norm_num
  have h4 : c6Nav.map Prod.snd = [(100 : ℚ), 120, 90, 110] := rfl
  rw [max_drawdown, if_neg (by norm_num [c6Nav]), h4, h3, listMin]
  rw [List.foldl_cons, List.foldl_cons, List.foldl_cons, List.foldl_nil]
  norm_num [min_def]

/-- C7: Insufficient data yields `None`, never an error: with fewer than 2
NAV points, every derived metric field of the returned record is `None`
(the function is total; no exception path exists). -/
theorem c7_insufficient_data_all_none (env : MetricsEnv) (code : String) (rfr : ℝ)
    (h : (env.fetchNav code).length < 2) :
    (compute_metrics_for_code env code rfr).cagr = none ∧
    (compute_metrics_for_code env code rfr).rolling_1y = none ∧
    (compute_metrics_for_code env code rfr).rolling_3y = none ∧
    (compute_metrics_for_code env code rfr).rolling_5y = none ∧
    (compute_metrics_for_code env code rfr).volatility_annual = none ∧
    (compute_metrics_for_code env code rfr).max_drawdown = none ∧
    (compute_metrics_for_code env code rfr).sharpe = none ∧
    (compute_metrics_for_code env code rfr).sortino = none := by
  have hc : compute_metrics_for_code env code rfr = initMetricsResult code := by
    rw [compute_metrics_for_code]
    simp only [if_pos h]
  rw [hc]
  exact ⟨rfl, rfl, rfl, rfl, rfl, rfl, rfl, rfl⟩

theorem c7_insufficient_data_all_none_witness :
    (compute_metrics_for_code c7Env "100" 0).cagr = none ∧
    (compute_metrics_for_code c7Env "100" 0).rolling_1y = none ∧
    (compute_metrics_for_code c7Env "100" 0).rolling_3y = none ∧
    (compute_metrics_for_code c7Env "100" 0).rolling_5y = none ∧
    (compute_metrics_for_code c7Env "100" 0).volatility_annual = none ∧
    (compute_metrics_for_code c7Env "100" 0).max_drawdown = none ∧
    (compute_metrics_for_code c7Env "100" 0).sharpe = none ∧
    (compute_metrics_for_code c7Env "100" 0).sortino = none :=
  c7_insufficient_data_all_none c7Env "100" 0 (by decide)

/-- C8: Batch isolation and completeness: the batch result has exactly one
entry per submitted code (in the result's key set), a failing code yields
its `{scheme_code, error}` entry, a succeeding code yields its metrics
record independently of every other code, and the number of error entries
equals the number of failing codes. -/
theorem c8_batch_totality_isolation (worker : String → Except String MetricsResult)
    (codes : List String) :
    ((compute_metrics_batch worker codes).map Prod.fst = codes) ∧
    (∀ c r, c ∈ codes → worker c = Except.ok r →
      (c, BatchEntry.ok r) ∈ compute_metrics_batch worker codes) ∧
    (∀ c e, c ∈ codes → worker c = Except.error e →
      (c, BatchEntry.err c e) ∈ compute_metrics_batch worker codes) ∧
    ((compute_metrics_batch worker codes).filter (fun pr => isErrEntry pr.2)).length
      = (codes.filter (fun c => workerFails worker c)).length := by
  refine ⟨?_, ?_, ?_, ?_⟩
  · simp [compute_metrics_batch, Function.comp_def]
  · intro c r hc hw
    exact List.mem_map.mpr ⟨c, hc, by simp [hw]⟩
  · intro c e hc hw
    exact List.mem_map.mpr ⟨c, hc, by simp [hw]⟩
  · induction codes with
    | nil => rfl
    | cons c cs ih =>
      simp only [compute_metrics_batch, List.map_cons, List.filter_cons] at ih ⊢
      cases hw : worker c with
      | ok r => simpa [workerFails, isErrEntry, hw] using ih
      | error e => simpa [workerFails, isErrEntry, hw] using ih

theorem c8_batch_totality_isolation_witness :
    ("103", BatchEntry.err "103" "boom") ∈ compute_metrics_batch c8Worker c8Codes ∧
    ((compute_metrics_batch c8Worker c8Codes).filter (fun pr => isErrEntry pr.2)).length = 1 ∧
    ((compute_metrics_batch c8Worker c8Codes).filter (fun pr => !isErrEntry pr.2)).length = 4 :=
  ⟨(c8_batch_totality_isolation c8Worker c8Codes).2.2.1 "103" "boom" (by decide) rfl,
    by decide, by decide⟩

/-- C9: Enumeration-failure fallback: when the in-memory and disk caches
miss and the provider's code enumeration raises, `build_master_list_cache`
returns the previously cached in-memory map unchanged when one exists,
and the empty map otherwise — it never propagates the exception. -/
theorem c9_enumeration_failure_fallback (force : Bool)
    (inMem : Option (List (String × String))) (disk : Option DiskPayload)
    (now ttl : ℤ) (e : String) (isActive : String → String → Bool)
    (hmem : inMem = none ∨ force = true)
    (hdisk : ∀ payload, disk = some payload → force = true ∨ ttl < now - payload.ts) :
    build_master_list_cache force inMem disk now ttl (Except.error e) isActive
      = (match inMem with
         | some m => m
         | none => []) := by
  cases force with
  | true =>
    cases inMem with
    | none => cases disk <;> rfl
    | some m =>
      have hfin : (if m.isEmpty then ([] : List (String × String)) else m) = m := by
        cases hm : m.isEmpty with
        | false => simp
        | true => simp [List.isEmpty_iff.mp hm]
      cases disk with
      | none =>
        rw [build_master_list_cache.eq_def]
        simp only [Option.isSome_some, Bool.not_true, Bool.and_false, Bool.false_eq_true,
          if_false]
        exact hfin
      | some payload =>
        rw [build_master_list_cache.eq_def]
        simp only [Option.isSome_some, Bool.not_true, Bool.and_false, Bool.false_eq_true,
          if_false]
        exact hfin
  | false =>
    have hmem' : inMem = none := hmem.resolve_right (by simp)
    subst hmem'
    cases disk with
    | none => rfl
    | some payload =>
      have hlt : ttl < now - payload.ts := (hdisk payload rfl).resolve_left (by simp)
      rw [build_master_list_cache.eq_def]
      simp [not_le.mpr hlt]

theorem c9_enumeration_failure_fallback_witness :
    build_master_list_cache true (some [("acme fund", "001")]) none 0 86400
        (Except.error "network down") (fun _ _ => true)
      = [("acme fund", "001")] :=
  c9_enumeration_failure_fallback true (some [("acme fund", "001")]) none 0 86400
    "network down" (fun _ _ => true) (Or.inr rfl) (fun _ h => absurd h (by simp))

end MFAdvisor
